import Mathlib

/-!
Verification of the folder-to-library reconciliation and persistence layer of the
SonicFlow sound-effect manager.

The definitions below are a shallow embedding of `src/services/storage.ts`
(`scanLibrary`, `saveMetadata`, `saveSoundToFolder`, the inline audio-extension
classifier and the `METADATA_FILE` constant), of the `SoundEffect` record type,
and of `handleDeleteCategory` from `src/App.tsx`.

Modelling conventions:
- JavaScript `Map` objects (insertion-ordered, `set` on an existing key replaces
  the value in place) are modelled by association lists with `mapSet` / `mapGet` /
  `mapOfList`.
- Nondeterministic inputs of a scan (fresh ids from `Math.random`, blob URLs from
  `URL.createObjectURL`, the clock) are oracle parameters `freshId`, `mkUrl`, `now`.
- The directory listing (`rootHandle.values()`) is a list of `FsEntry` values; a
  `dir` entry carries its contents so that claims about subdirectory visibility
  can be stated.
- The JSON document written by `saveMetadata` is modelled by the `Json` type; a
  record's serialized fields are exactly the fields of the object produced by the
  `({ url, ...rest }) => rest` destructuring in the source.
- String operations used by the source (`toLowerCase`, `endsWith`, `includes`,
  the `replace` regexes) are given char-level executable translations.
-/

/-- One library record, as in `SoundEffect` (`types.ts` of the scanning variant):
`url` is `none` when the record was parsed back from persisted metadata, which
never stores the field. `source` is kept as its string tag. -/
structure SoundEffect where
  id : String
  name : String
  filename : String
  category : String
  tags : List String
  url : Option String
  duration : Nat
  source : String
  isFavorite : Bool
  createdAt : Nat
deriving DecidableEq

/-- Erase the ephemeral playback URL, as parsing persisted metadata does. -/
def stripUrl (s : SoundEffect) : SoundEffect := { s with url := none }

/-- JS `map.set k v`: replace the value in place if the key exists, else append. -/
def mapSet (m : List (String × α)) (k : String) (v : α) : List (String × α) :=
  if m.any (fun p => p.1 = k) then
    m.map (fun p => if p.1 = k then (k, v) else p)
  else
    m ++ [(k, v)]

/-- JS `map.get k`. -/
def mapGet (m : List (String × α)) (k : String) : Option α :=
  (m.find? (fun p => p.1 = k)).map (fun p => p.2)

/-- JS `new Map(pairs)`: later pairs with the same key overwrite earlier ones. -/
def mapOfList (l : List (String × α)) : List (String × α) :=
  l.foldl (fun m p => mapSet m p.1 p.2) []

/-- Does the reversed string `cs` begin with the reversed pattern `ps`? -/
def revLeads : List Char → List Char → Bool
  | _, [] => true
  | [], _ :: _ => false
  | c :: cs, p :: ps => (c = p) && revLeads cs ps

/-- JS `s.endsWith(pat)`, char-level. -/
def jsEndsWith (s pat : String) : Bool := revLeads s.data.reverse pat.data.reverse

/-- JS `s.toLowerCase()` restricted to the ASCII case mapping, which is all the
extension checks of the source depend on. -/
def jsToLower (s : String) : String := String.mk (s.data.map Char.toLower)

/-- The inline audio classifier of `scanLibrary` (storage.ts lines 66-67):
lowercase the entry name and test the four hard-coded extensions. -/
def isAudio (name : String) : Bool :=
  let n := jsToLower name
  jsEndsWith n ".mp3" || jsEndsWith n ".wav" || jsEndsWith n ".ogg" || jsEndsWith n ".m4a"

/-- One entry of a directory listing; `dir` carries the subdirectory's contents. -/
inductive FsEntry where
  | file (name : String)
  | dir (name : String) (entries : List FsEntry)

/-- Insert a filename key the way `Map.set` does: keep the first-insertion
position, never duplicate a key. -/
def setInsert (l : List String) (k : String) : List String :=
  if l.contains k then l else l ++ [k]

/-- Step 2 of `scanLibrary`: iterate `rootHandle.values()`, keep `kind === 'file'`
entries whose lowercased name passes the extension test, and record them in the
`audioFiles` map (here: the insertion-ordered list of their names). Subdirectory
entries are skipped without being descended into. -/
def collectAudioFiles (entries : List FsEntry) : List String :=
  entries.foldl (fun acc e =>
    match e with
    | .file n => if isAudio n then setInsert acc n else acc
    | .dir _ _ => acc) []

/-- JS `filename.replace(/\.[^/.]+$/, "")`: drop a final dot followed by one or
more characters none of which is a dot or a slash; otherwise leave unchanged. -/
def stripExt (s : String) : String :=
  let rcs := s.data.reverse
  let run := rcs.takeWhile (fun c => c ≠ '.' && c ≠ '/')
  match rcs.drop run.length with
  | '.' :: rest2 => if run.isEmpty then s else String.mk rest2.reverse
  | _ => s

/-- The record synthesized for a newly discovered file (storage.ts lines 92-103). -/
def newSound (filename id url : String) (now : Nat) : SoundEffect :=
  { id := id
    name := stripExt filename
    filename := filename
    category := "Chưa phân loại"
    tags := ["newly-detected"]
    url := some url
    duration := 0
    source := "UPLOAD"
    isFavorite := false
    createdAt := now }

/-- Step 3 of `scanLibrary`: walk the `audioFiles` keys in order; a filename found
in `existingMap` keeps its record with a fresh session URL, an unknown filename
gets a synthesized record with the next fresh id (`k` counts the ids consumed). -/
def reconcileAux (existingMap : List (String × SoundEffect))
    (mkUrl : String → String) (freshId : Nat → String) (now : Nat) :
    List String → Nat → List SoundEffect
  | [], _ => []
  | filename :: rest, k =>
    match mapGet existingMap filename with
    | some sound =>
        { sound with url := some (mkUrl filename) } ::
          reconcileAux existingMap mkUrl freshId now rest k
    | none =>
        newSound filename (freshId k) (mkUrl filename) now ::
          reconcileAux existingMap mkUrl freshId now rest (k + 1)

/-- The JSON documents `saveMetadata` produces. -/
inductive Json where
  | str (s : String)
  | num (n : Nat)
  | jbool (b : Bool)
  | arr (elems : List Json)
  | obj (fields : List (String × Json))

/-- The serialized fields of one record: exactly the result of the
`({ url, ...rest }) => rest` destructuring in `saveMetadata` — every field of the
record except `url`. -/
def persistFields (s : SoundEffect) : List (String × Json) :=
  [("id", .str s.id), ("name", .str s.name), ("filename", .str s.filename),
   ("category", .str s.category), ("tags", .arr (s.tags.map .str)),
   ("duration", .num s.duration), ("source", .str s.source),
   ("isFavorite", .jbool s.isFavorite), ("createdAt", .num s.createdAt)]

/-- One record as serialized by `saveMetadata`. -/
def persistSoundJson (s : SoundEffect) : Json := .obj (persistFields s)

/-- The `storageData` object of `saveMetadata` (storage.ts lines 118-120):
a single top-level `sounds` key holding the url-stripped records. -/
def storageData (library : List SoundEffect) : Json :=
  .obj [("sounds", .arr (library.map persistSoundJson))]

/-- `const METADATA_FILE = 'sonicflow_data.json'` (storage.ts line 29). -/
def METADATA_FILE : String := "sonicflow_data.json"

/-- What a call to `saveMetadata` did: wrote a payload to a file inside the
managed directory, or returned without any write. -/
inductive WriteOutcome where
  | wrote (file : String) (payload : Json)
  | noWrite

/-- `saveMetadata` (storage.ts lines 114-126): with no root handle it returns
immediately (no write, no failure); otherwise it overwrites `METADATA_FILE` with
the url-stripped snapshot. -/
def saveMetadata (hasRoot : Bool) (library : List SoundEffect) : WriteOutcome :=
  if hasRoot then .wrote METADATA_FILE (storageData library) else .noWrite

/-- What `scanLibrary` returns together with the metadata write it performed in
its step 4 before returning. -/
structure ScanResult where
  library : List SoundEffect
  persisted : WriteOutcome

/-- `scanLibrary` (storage.ts lines 46-112) past its root-handle guard:
read prior metadata (`prior`), collect the audio files of the listing, reconcile,
persist the merged snapshot, return it. -/
def scanLibrary (prior : List SoundEffect) (entries : List FsEntry)
    (mkUrl : String → String) (freshId : Nat → String) (now : Nat) : ScanResult :=
  let audioFiles := collectAudioFiles entries
  let existingMap := mapOfList (prior.map (fun s => (s.filename, s)))
  let finalLibrary := reconcileAux existingMap mkUrl freshId now audioFiles 0
  { library := finalLibrary, persisted := saveMetadata true finalLibrary }

/-- JS `name.replace(/[^a-z0-9]/gi, '_').toLowerCase()` from `saveSoundToFolder`. -/
def sanitizeName (s : String) : String :=
  jsToLower (String.mk (s.data.map (fun c => if c.isAlphanum then c else '_')))

/-- JS `blobType.includes('wav')`. -/
def hasWavSub : List Char → Bool
  | 'w' :: 'a' :: 'v' :: _ => true
  | _ :: rest => hasWavSub rest
  | [] => false

/-- `saveSoundToFolder` (storage.ts lines 128-149): throws `"No folder"` without a
root handle; otherwise derives the target filename, writes the blob there, and
returns the record with its final `filename`. The first component of the result
is the filename the blob was written to. -/
def saveSoundToFolder (hasRoot : Bool) (sound : SoundEffect) (blobType : String) :
    Except String (String × SoundEffect) :=
  if !hasRoot then .error "No folder"
  else
    let filename0 := if sound.filename ≠ "" then sound.filename
                     else sanitizeName sound.name ++ ".mp3"
    let filename :=
      if hasWavSub blobType.data && !(jsEndsWith filename0 ".wav") then
        filename0 ++ ".wav"
      else if !(jsEndsWith filename0 ".mp3") && !(jsEndsWith filename0 ".wav") then
        filename0 ++ ".mp3"
      else filename0
    .ok (filename, { sound with filename := filename })

mutual
/-- Does `key` occur as an object key anywhere inside the document? -/
def jsonHasKey (key : String) : Json → Bool
  | .obj fields => fieldsHasKey key fields
  | .arr elems => elemsHasKey key elems
  | _ => false

/-- `jsonHasKey` over the elements of an array. -/
def elemsHasKey (key : String) : List Json → Bool
  | [] => false
  | j :: js => jsonHasKey key j || elemsHasKey key js

/-- `jsonHasKey` over the fields of an object. -/
def fieldsHasKey (key : String) : List (String × Json) → Bool
  | [] => false
  | (k, v) :: fs => (k = key) || jsonHasKey key v || fieldsHasKey key fs
end

/-- The top-level keys of a JSON document. -/
def jsonTopKeys : Json → List String
  | .obj fields => fields.map (fun p => p.1)
  | _ => []

/-- `DEFAULT_CATEGORIES` from `types.ts` of the category-managing variant. -/
def DEFAULT_CATEGORIES : List String :=
  ["Chưa phân loại", "Điện ảnh", "Foley (Tiếng động)", "Giao diện/UI", "Môi trường",
   "Kinh dị", "Hài hước", "Hành động", "Khoa học viễn tưởng"]

/-- JS `Array.from(new Set(l))`: deduplicate keeping first occurrences. -/
def setDedup (l : List String) : List String := l.foldl setInsert []

/-- `allCategories` (App.tsx line 291): defaults plus custom categories, deduplicated. -/
def allCategories (customCategories : List String) : List String :=
  setDedup (DEFAULT_CATEGORIES ++ customCategories)

/-- The category-relevant application state of `App.tsx`. -/
structure AppState where
  sounds : List SoundEffect
  customCategories : List String

/-- Modelled from the spec: the two-argument `writeMetadata(records, customCategories)`
that `handleDeleteCategory` calls is not part of `src/services/storage.ts` (only its
caller `src/App.tsx` is under `src/`); per spec sections 4.3 and 6 it serializes the
full snapshot `{ sounds: records-without-url, customCategories }` in one write. -/
def writeMetadataPayload (sounds : List SoundEffect) (customCategories : List String) : Json :=
  .obj [("sounds", .arr (sounds.map persistSoundJson)),
        ("customCategories", .arr (customCategories.map .str))]

/-- `handleDeleteCategory` (App.tsx lines 467-496), confirmed path: default
categories are immutable; a custom category is removed from the custom list, its
sounds are moved to "Chưa phân loại", and one metadata write persists both. The
second component lists the payloads of the metadata writes performed. -/
def handleDeleteCategory (st : AppState) (category : String) : AppState × List Json :=
  if DEFAULT_CATEGORIES.contains category then (st, [])
  else
    let newCustom := st.customCategories.filter (fun c => c ≠ category)
    let newLib := st.sounds.map (fun s =>
      if s.category = category then { s with category := "Chưa phân loại" } else s)
    ({ sounds := newLib, customCategories := newCustom },
     [writeMetadataPayload newLib newCustom])

/-- The classifier the spec sentence describes: a case-insensitive allow-list of
seven extensions (mp3, wav, ogg, m4a, aac, wma, flac). -/
def specAudioExts : List String := ["mp3", "wav", "ogg", "m4a", "aac", "wma", "flac"]

/-- Spec-side classifier over the seven-extension allow-list. -/
def specIsAudioSeven (name : String) : Bool :=
  specAudioExts.any (fun e => jsEndsWith (jsToLower name) ("." ++ e))

/-- The four extensions the source actually tests. -/
def codeAudioExts : List String := ["mp3", "wav", "ogg", "m4a"]

/-- Allow-list classifier over the four extensions of the source. -/
def specIsAudioFour (name : String) : Bool :=
  codeAudioExts.any (fun e => jsEndsWith (jsToLower name) ("." ++ e))

/-- A three-record, two-custom-category state used to witness category deletion. -/
def sampleState : AppState :=
  { sounds :=
      [newSound "a.wav" "i1" "u" 0,
       { newSound "b.wav" "i2" "u" 0 with category := "Custom1" },
       { newSound "c.wav" "i3" "u" 0 with category := "Điện ảnh" }],
    customCategories := ["Custom1", "Khác"] }

/-! ## Lemmas about the JS `Map` model -/

theorem mem_mapSet {α : Type} {m : List (String × α)} {k : String} {v : α} {p : String × α}
    (hp : p ∈ mapSet m k v) : p ∈ m ∨ p = (k, v) := by
  unfold mapSet at hp
  split at hp
  · rcases List.mem_map.mp hp with ⟨q, hq, hqe⟩
    by_cases h : q.1 = k
    · simp [h] at hqe
      right; exact hqe.symm
    · simp [h] at hqe
      left; exact hqe ▸ hq
  · rcases List.mem_append.mp hp with h | h
    · left; exact h
    · right; simpa using h

theorem mem_foldl_mapSet {α : Type} {p : String × α} :
    ∀ {l acc : List (String × α)}, p ∈ l.foldl (fun m q => mapSet m q.1 q.2) acc →
      p ∈ acc ∨ p ∈ l := by
  intro l
  induction l with
  | nil => intro acc h; exact Or.inl h
  | cons q rest ih =>
    intro acc h
    rcases ih h with h1 | h1
    · rcases mem_mapSet h1 with h2 | h2
      · exact Or.inl h2
      · exact Or.inr (by simp [h2])
    · exact Or.inr (List.mem_cons_of_mem _ h1)

theorem mem_mapOfList {α : Type} {l : List (String × α)} {p : String × α}
    (hp : p ∈ mapOfList l) : p ∈ l := by
  rcases mem_foldl_mapSet hp with h0 | h0
  · simp at h0
  · exact h0

theorem mapGet_eq_some {α : Type} {m : List (String × α)} {k : String} {v : α}
    (h : mapGet m k = some v) : (k, v) ∈ m := by
  unfold mapGet at h
  rcases Option.map_eq_some'.mp h with ⟨p, hp, hpv⟩
  have hk : p.1 = k := by simpa using List.find?_some hp
  have hm : p ∈ m := List.mem_of_find?_eq_some hp
  have : p = (k, v) := by
    cases p
    simp_all
  exact this ▸ hm

theorem mapGet_eq_none {α : Type} {m : List (String × α)} {k : String} :
    mapGet m k = none ↔ ∀ p ∈ m, p.1 ≠ k := by
  unfold mapGet
  simp [List.find?_eq_none]

theorem keys_mapSet {α : Type} {m : List (String × α)} {k x : String} {v : α} :
    (∃ p ∈ mapSet m k v, p.1 = x) ↔ (∃ p ∈ m, p.1 = x) ∨ x = k := by
  unfold mapSet
  split
  · next hany =>
    simp only [List.mem_map]
    constructor
    · rintro ⟨p, ⟨q, hq, rfl⟩, hpx⟩
      by_cases hqk : q.1 = k
      · simp only [hqk, if_pos rfl] at hpx
        right; exact hpx.symm
      · simp only [if_neg hqk] at hpx
        left; exact ⟨q, hq, hpx⟩
    · rintro (⟨p, hp, hpx⟩ | rfl)
      · by_cases hpk : p.1 = k
        · exact ⟨(k, v), ⟨p, hp, by simp [hpk]⟩, by rw [← hpx, hpk]⟩
        · exact ⟨p, ⟨p, hp, by simp [hpk]⟩, hpx⟩
      · rcases List.any_eq_true.mp hany with ⟨q, hq, hqk⟩
        have hqk2 : q.1 = x := by simpa using hqk
        exact ⟨(x, v), ⟨q, hq, by simp [hqk2]⟩, rfl⟩
  · next _ =>
    constructor
    · rintro ⟨p, hp, hpx⟩
      rcases List.mem_append.mp hp with h | h
      · exact Or.inl ⟨p, h, hpx⟩
      · simp only [List.mem_singleton] at h
        subst h; right; exact hpx.symm
    · rintro (⟨p, hp, hpx⟩ | rfl)
      · exact ⟨p, List.mem_append_left _ hp, hpx⟩
      · exact ⟨(x, v), List.mem_append_right _ (by simp), rfl⟩

theorem keys_foldl_mapSet {α : Type} {x : String} :
    ∀ {l acc : List (String × α)},
      (∃ p ∈ l.foldl (fun m q => mapSet m q.1 q.2) acc, p.1 = x) ↔
        (∃ p ∈ acc, p.1 = x) ∨ (∃ p ∈ l, p.1 = x) := by
  intro l
  induction l with
  | nil => intro acc; simp
  | cons q rest ih =>
    intro acc
    rw [List.foldl_cons, ih, keys_mapSet]
    simp only [List.mem_cons]
    constructor
    · rintro ((h | rfl) | h)
      · exact Or.inl h
      · exact Or.inr ⟨q, Or.inl rfl, rfl⟩
      · rcases h with ⟨p, hp, hpx⟩
        exact Or.inr ⟨p, Or.inr hp, hpx⟩
    · rintro (h | ⟨p, hp | hp, hpx⟩)
      · exact Or.inl (Or.inl h)
      · subst hp; exact Or.inl (Or.inr hpx.symm)
      · exact Or.inr ⟨p, hp, hpx⟩

theorem mapGet_mapOfList_of_key {α : Type} {l : List (String × α)} {k : String}
    (h : ∃ p ∈ l, p.1 = k) : ∃ v, mapGet (mapOfList l) k = some v := by
  cases hm : mapGet (mapOfList l) k with
  | some v => exact ⟨v, rfl⟩
  | none =>
    exfalso
    have hnone := mapGet_eq_none.mp hm
    have hkey : ∃ p ∈ mapOfList l, p.1 = k := by
      unfold mapOfList
      exact keys_foldl_mapSet.mpr (Or.inr h)
    rcases hkey with ⟨p, hp, hpk⟩
    exact hnone p hp hpk

theorem existing_some {prior : List SoundEffect} {f : String} {s : SoundEffect}
    (h : mapGet (mapOfList (prior.map (fun s => (s.filename, s)))) f = some s) :
    s ∈ prior ∧ s.filename = f := by
  have hm := mem_mapOfList (mapGet_eq_some h)
  rcases List.mem_map.mp hm with ⟨t, ht, hte⟩
  have h1 : t.filename = f := congrArg Prod.fst hte
  have h2 : t = s := congrArg Prod.snd hte
  subst h2
  exact ⟨ht, h1⟩

theorem existing_none {prior : List SoundEffect} {f : String}
    (h : ∀ p ∈ prior, p.filename ≠ f) :
    mapGet (mapOfList (prior.map (fun s => (s.filename, s)))) f = none := by
  apply mapGet_eq_none.mpr
  intro p hp
  rcases List.mem_map.mp (mem_mapOfList hp) with ⟨t, ht, rfl⟩
  exact h t ht

theorem existing_found {prior : List SoundEffect} {f : String}
    (h : ∃ p ∈ prior, p.filename = f) :
    ∃ s, mapGet (mapOfList (prior.map (fun s => (s.filename, s)))) f = some s := by
  apply mapGet_mapOfList_of_key
  rcases h with ⟨p, hp, hpf⟩
  exact ⟨(p.filename, p), List.mem_map_of_mem _ hp, hpf⟩

/-! ## Lemmas about the file enumeration -/

theorem mem_setInsert {l : List String} {k x : String} :
    x ∈ setInsert l k ↔ x ∈ l ∨ x = k := by
  unfold setInsert
  split
  · next h =>
    have hk : k ∈ l := by simpa using h
    constructor
    · exact Or.inl
    · rintro (hx | rfl)
      · exact hx
      · exact hk
  · simp

theorem nodup_setInsert {l : List String} (h : l.Nodup) (k : String) :
    (setInsert l k).Nodup := by
  unfold setInsert
  split
  · exact h
  · next hc =>
    have hk : k ∉ l := by simpa using hc
    simp [List.nodup_append, h, hk]

theorem mem_collect_foldl {n : String} :
    ∀ {entries : List FsEntry} {acc : List String},
      n ∈ entries.foldl (fun acc e =>
            match e with
            | .file m => if isAudio m then setInsert acc m else acc
            | .dir _ _ => acc) acc ↔
        n ∈ acc ∨ (FsEntry.file n ∈ entries ∧ isAudio n = true) := by
  intro entries
  induction entries with
  | nil => intro acc; simp
  | cons e rest ih =>
    intro acc
    rw [List.foldl_cons, ih]
    cases e with
    | file m =>
      by_cases ha : isAudio m
      · simp only [if_pos ha, mem_setInsert, List.mem_cons]
        constructor
        · rintro ((h | rfl) | h)
          · exact Or.inl h
          · exact Or.inr ⟨Or.inl rfl, ha⟩
          · exact Or.inr ⟨Or.inr h.1, h.2⟩
        · rintro (h | ⟨hm | hm, haud⟩)
          · exact Or.inl (Or.inl h)
          · cases hm
            exact Or.inl (Or.inr rfl)
          · exact Or.inr ⟨hm, haud⟩
      · simp only [if_neg ha, List.mem_cons]
        constructor
        · rintro (h | h)
          · exact Or.inl h
          · exact Or.inr ⟨Or.inr h.1, h.2⟩
        · rintro (h | ⟨hm | hm, haud⟩)
          · exact Or.inl h
          · cases hm
            exact absurd haud ha
          · exact Or.inr ⟨hm, haud⟩
    | dir d sub =>
      simp only [List.mem_cons]
      constructor
      · rintro (h | h)
        · exact Or.inl h
        · exact Or.inr ⟨Or.inr h.1, h.2⟩
      · rintro (h | ⟨hm | hm, haud⟩)
        · exact Or.inl h
        · cases hm
        · exact Or.inr ⟨hm, haud⟩

theorem mem_collectAudioFiles {entries : List FsEntry} {n : String} :
    n ∈ collectAudioFiles entries ↔ FsEntry.file n ∈ entries ∧ isAudio n = true := by
  unfold collectAudioFiles
  rw [mem_collect_foldl]
  simp

theorem nodup_collect_foldl :
    ∀ {entries : List FsEntry} {acc : List String}, acc.Nodup →
      (entries.foldl (fun acc e =>
        match e with
        | .file m => if isAudio m then setInsert acc m else acc
        | .dir _ _ => acc) acc).Nodup := by
  intro entries
  induction entries with
  | nil => intro acc h; exact h
  | cons e rest ih =>
    intro acc h
    rw [List.foldl_cons]
    apply ih
    cases e with
    | file m =>
      by_cases ha : isAudio m
      · simpa [if_pos ha] using nodup_setInsert h m
      · simpa [if_neg ha] using h
    | dir d sub => exact h

theorem nodup_collectAudioFiles (entries : List FsEntry) :
    (collectAudioFiles entries).Nodup := by
  unfold collectAudioFiles
  exact nodup_collect_foldl List.nodup_nil

/-! ## Lemmas about reconciliation -/

theorem withUrl_stripUrl (s : SoundEffect) (u : Option String) :
    ({ stripUrl s with url := u } : SoundEffect) = { s with url := u } := by
  cases s
  rfl

theorem reconcileAux_filenames {existingMap : List (String × SoundEffect)}
    (hkey : ∀ f s, mapGet existingMap f = some s → s.filename = f)
    (mkUrl : String → String) (freshId : Nat → String) (now : Nat) :
    ∀ (files : List String) (k : Nat),
      (reconcileAux existingMap mkUrl freshId now files k).map (fun r => r.filename) = files := by
  intro files
  induction files with
  | nil => intro k; rfl
  | cons f rest ih =>
    intro k
    cases hg : mapGet existingMap f with
    | some s =>
      simp only [reconcileAux, hg, List.map_cons, ih]
      simp [hkey f s hg]
    | none =>
      simp only [reconcileAux, hg, List.map_cons, ih]
      simp [newSound]

theorem mem_reconcileAux {existingMap : List (String × SoundEffect)}
    {mkUrl : String → String} {freshId : Nat → String} {now : Nat} :
    ∀ {files : List String} {k : Nat} {r : SoundEffect},
      r ∈ reconcileAux existingMap mkUrl freshId now files k →
        ∃ f ∈ files,
          (∃ s, mapGet existingMap f = some s ∧ r = { s with url := some (mkUrl f) }) ∨
          (mapGet existingMap f = none ∧ ∃ j, r = newSound f (freshId j) (mkUrl f) now) := by
  intro files
  induction files with
  | nil => intro k r h; simp [reconcileAux] at h
  | cons f rest ih =>
    intro k r h
    cases hg : mapGet existingMap f with
    | some s =>
      rw [reconcileAux] at h
      rw [hg] at h
      rcases List.mem_cons.mp h with rfl | h2
      · exact ⟨f, List.mem_cons_self _ _, Or.inl ⟨s, hg, rfl⟩⟩
      · rcases ih h2 with ⟨g, hgmem, hgcase⟩
        exact ⟨g, List.mem_cons_of_mem _ hgmem, hgcase⟩
    | none =>
      rw [reconcileAux] at h
      rw [hg] at h
      rcases List.mem_cons.mp h with rfl | h2
      · exact ⟨f, List.mem_cons_self _ _, Or.inr ⟨hg, k, rfl⟩⟩
      · rcases ih h2 with ⟨g, hgmem, hgcase⟩
        exact ⟨g, List.mem_cons_of_mem _ hgmem, hgcase⟩

theorem reconcileAux_allFound {existingMap : List (String × SoundEffect)}
    {mkUrl : String → String} {freshId : Nat → String} {now : Nat} :
    ∀ {lib : List SoundEffect},
      (∀ s ∈ lib, mapGet existingMap s.filename = some (stripUrl s)) → ∀ (k : Nat),
      reconcileAux existingMap mkUrl freshId now (lib.map (fun s => s.filename)) k =
        lib.map (fun s => { s with url := some (mkUrl s.filename) }) := by
  intro lib
  induction lib with
  | nil => intro _ k; rfl
  | cons s rest ih =>
    intro h k
    have hs := h s (List.mem_cons_self _ _)
    have hrest : ∀ t ∈ rest, mapGet existingMap t.filename = some (stripUrl t) :=
      fun t ht => h t (List.mem_cons_of_mem _ ht)
    simp only [List.map_cons, reconcileAux, hs, ih hrest k, withUrl_stripUrl]

theorem mapGet_map_pair (l : List SoundEffect) (f : String) :
    mapGet (l.map (fun t => (t.filename, t))) f = l.find? (fun t => t.filename = f) := by
  induction l with
  | nil => rfl
  | cons t rest ih =>
    by_cases h : t.filename = f
    · simp [mapGet, List.find?_cons, h]
    · simpa [mapGet, List.find?_cons, h] using ih

theorem find?_filename_of_nodup :
    ∀ {l : List SoundEffect}, (l.map (fun t => t.filename)).Nodup →
      ∀ {s : SoundEffect}, s ∈ l → l.find? (fun t => t.filename = s.filename) = some s := by
  intro l
  induction l with
  | nil => intro _ s hs; simp at hs
  | cons t rest ih =>
    intro hnd s hs
    rw [List.map_cons, List.nodup_cons] at hnd
    rcases List.mem_cons.mp hs with rfl | hs2
    · exact List.find?_cons_of_pos _ (by simp)
    · have hne : t.filename ≠ s.filename := by
        intro he
        exact hnd.1 (he ▸ List.mem_map_of_mem _ hs2)
      rw [List.find?_cons_of_neg _ (by simp [hne])]
      exact ih hnd.2 hs2

theorem foldl_mapSet_append {α : Type} :
    ∀ {l acc : List (String × α)},
      (∀ p ∈ l, ∀ q ∈ acc, p.1 ≠ q.1) → (l.map Prod.fst).Nodup →
      l.foldl (fun m q => mapSet m q.1 q.2) acc = acc ++ l := by
  intro l
  induction l with
  | nil => intro acc _ _; simp
  | cons p rest ih =>
    intro acc hdisj hnd
    rw [List.map_cons, List.nodup_cons] at hnd
    have hset : mapSet acc p.1 p.2 = acc ++ [p] := by
      unfold mapSet
      have : acc.any (fun q => q.1 = p.1) = false := by
        rw [List.any_eq_false]
        intro q hq
        simp only [decide_eq_true_eq]
        exact fun he => hdisj p (List.mem_cons_self _ _) q hq he.symm
      simp [this]
    rw [List.foldl_cons, hset, ih ?_ hnd.2, List.append_assoc]
    · rfl
    · intro r hr q hq
      rcases List.mem_append.mp hq with h | h
      · exact hdisj r (List.mem_cons_of_mem _ hr) q h
      · simp only [List.mem_singleton] at h
        subst h
        intro he
        exact hnd.1 (he ▸ List.mem_map_of_mem _ hr)

theorem mapOfList_self {α : Type} {l : List (String × α)}
    (hnd : (l.map Prod.fst).Nodup) : mapOfList l = l := by
  unfold mapOfList
  rw [foldl_mapSet_append (by simp) hnd]
  rfl

theorem scanLibrary_filenames (prior : List SoundEffect) (entries : List FsEntry)
    (mkUrl : String → String) (freshId : Nat → String) (now : Nat) :
    (scanLibrary prior entries mkUrl freshId now).library.map (fun r => r.filename) =
      collectAudioFiles entries :=
  reconcileAux_filenames (fun _ _ h => (existing_some h).2) mkUrl freshId now
    (collectAudioFiles entries) 0

theorem scanLibrary_rescan (prior : List SoundEffect) (entries : List FsEntry)
    (mkUrl1 mkUrl2 : String → String) (freshId1 freshId2 : Nat → String) (now1 now2 : Nat) :
    (scanLibrary ((scanLibrary prior entries mkUrl1 freshId1 now1).library.map stripUrl)
        entries mkUrl2 freshId2 now2).library =
      (scanLibrary prior entries mkUrl1 freshId1 now1).library.map
        (fun s => { s with url := some (mkUrl2 s.filename) }) := by
  generalize hfirst : (scanLibrary prior entries mkUrl1 freshId1 now1).library = first
  have hfn : first.map (fun r => r.filename) = collectAudioFiles entries := by
    rw [← hfirst]
    exact scanLibrary_filenames prior entries mkUrl1 freshId1 now1
  have hsfn : (first.map stripUrl).map (fun r => r.filename) = first.map (fun r => r.filename) := by
    simp [stripUrl]
  have hnd2 : ((first.map stripUrl).map (fun r => r.filename)).Nodup := by
    rw [hsfn, hfn]
    exact nodup_collectAudioFiles entries
  have hall : ∀ s ∈ first.map stripUrl,
      mapGet (mapOfList ((first.map stripUrl).map (fun t => (t.filename, t)))) s.filename
        = some (stripUrl s) := by
    intro s hs
    have hself : mapOfList ((first.map stripUrl).map (fun t => (t.filename, t)))
        = (first.map stripUrl).map (fun t => (t.filename, t)) := by
      apply mapOfList_self
      simpa [List.map_map, Function.comp] using hnd2
    rw [hself, mapGet_map_pair, find?_filename_of_nodup hnd2 hs]
    rcases List.mem_map.mp hs with ⟨t, _, rfl⟩
    simp [stripUrl]
  have hmain := @reconcileAux_allFound _ mkUrl2 freshId2 now2 _ hall 0
  show reconcileAux (mapOfList ((first.map stripUrl).map (fun s => (s.filename, s))))
      mkUrl2 freshId2 now2 (collectAudioFiles entries) 0 = _
  rw [← hfn, ← hsfn, hmain, List.map_map]
  congr 1

/-- C1: every scan, whatever the prior metadata (duplicates included) and whatever
the directory listing, yields a library with pairwise distinct filenames, and with
a record for each enumerated accepted filename — exactly one record per filename. -/
theorem scan_unique_filenames (prior : List SoundEffect) (entries : List FsEntry)
    (mkUrl : String → String) (freshId : Nat → String) (now : Nat) :
    ((scanLibrary prior entries mkUrl freshId now).library.map (fun r => r.filename)).Nodup ∧
    ∀ n ∈ collectAudioFiles entries,
      ∃ r ∈ (scanLibrary prior entries mkUrl freshId now).library, r.filename = n := by
  constructor
  · rw [scanLibrary_filenames]
    exact nodup_collectAudioFiles entries
  · intro n hn
    have : n ∈ (scanLibrary prior entries mkUrl freshId now).library.map (fun r => r.filename) := by
      rw [scanLibrary_filenames]
      exact hn
    rcases List.mem_map.mp this with ⟨r, hr, hrn⟩
    exact ⟨r, hr, hrn⟩

/-- C1 witness: a scan over a sample listing with duplicated prior records. -/
theorem scan_unique_filenames_witness :
    ((scanLibrary
        [newSound "kick.wav" "a" "u1" 0, newSound "kick.wav" "b" "u2" 0]
        [.file "kick.wav", .file "snare.wav", .dir "sub" [.file "hat.wav"]]
        (fun f => "blob:" ++ f) (fun _ => "freshid") 9).library.map
          (fun r => r.filename)).Nodup ∧
    ∀ n ∈ collectAudioFiles [.file "kick.wav", .file "snare.wav", .dir "sub" [.file "hat.wav"]],
      ∃ r ∈ (scanLibrary
        [newSound "kick.wav" "a" "u1" 0, newSound "kick.wav" "b" "u2" 0]
        [.file "kick.wav", .file "snare.wav", .dir "sub" [.file "hat.wav"]]
        (fun f => "blob:" ++ f) (fun _ => "freshid") 9).library, r.filename = n :=
  scan_unique_filenames
    [newSound "kick.wav" "a" "u1" 0, newSound "kick.wav" "b" "u2" 0]
    [.file "kick.wav", .file "snare.wav", .dir "sub" [.file "hat.wav"]]
    (fun f => "blob:" ++ f) (fun _ => "freshid") 9

/-- C2: rescanning an unchanged listing, with the persisted (url-stripped) result
of the first scan as prior metadata, reproduces every record — the same `id` and
the same value in every field, with only `url` (re-minted each session) allowed to
differ. -/
theorem scan_idempotent (prior : List SoundEffect) (entries : List FsEntry)
    (mkUrl1 mkUrl2 : String → String) (freshId1 freshId2 : Nat → String) (now1 now2 : Nat) :
    ((scanLibrary ((scanLibrary prior entries mkUrl1 freshId1 now1).library.map stripUrl)
        entries mkUrl2 freshId2 now2).library.map stripUrl =
      (scanLibrary prior entries mkUrl1 freshId1 now1).library.map stripUrl) ∧
    ((scanLibrary ((scanLibrary prior entries mkUrl1 freshId1 now1).library.map stripUrl)
        entries mkUrl2 freshId2 now2).library.map (fun r => r.id) =
      (scanLibrary prior entries mkUrl1 freshId1 now1).library.map (fun r => r.id)) := by
  rw [scanLibrary_rescan, List.map_map, List.map_map]
  exact ⟨rfl, rfl⟩

/-- C2 witness: a first scan over an empty prior and a sample listing, rescanned. -/
theorem scan_idempotent_witness :
    ((scanLibrary ((scanLibrary [] [.file "kick.wav", .file "snare.wav"]
        (fun f => "blob1:" ++ f) (fun n => "id" ++ toString n) 3).library.map stripUrl)
        [.file "kick.wav", .file "snare.wav"]
        (fun f => "blob2:" ++ f) (fun n => "id2" ++ toString n) 4).library.map stripUrl =
      (scanLibrary [] [.file "kick.wav", .file "snare.wav"]
        (fun f => "blob1:" ++ f) (fun n => "id" ++ toString n) 3).library.map stripUrl) ∧
    ((scanLibrary ((scanLibrary [] [.file "kick.wav", .file "snare.wav"]
        (fun f => "blob1:" ++ f) (fun n => "id" ++ toString n) 3).library.map stripUrl)
        [.file "kick.wav", .file "snare.wav"]
        (fun f => "blob2:" ++ f) (fun n => "id2" ++ toString n) 4).library.map (fun r => r.id) =
      (scanLibrary [] [.file "kick.wav", .file "snare.wav"]
        (fun f => "blob1:" ++ f) (fun n => "id" ++ toString n) 3).library.map (fun r => r.id)) :=
  scan_idempotent [] [.file "kick.wav", .file "snare.wav"]
    (fun f => "blob1:" ++ f) (fun f => "blob2:" ++ f)
    (fun n => "id" ++ toString n) (fun n => "id2" ++ toString n) 3 4

/-- C3: prior records whose filename is not re-encountered are dropped from the
result; the merged set is persisted through the metadata write before the scan
returns; and every surviving record equals one of the prior records in every
field except `url`. -/
theorem scan_deletion (prior : List SoundEffect) (entries : List FsEntry)
    (mkUrl : String → String) (freshId : Nat → String) (now : Nat) :
    (∀ p ∈ prior, p.filename ∉ collectAudioFiles entries →
        ∀ r ∈ (scanLibrary prior entries mkUrl freshId now).library,
          r.filename ≠ p.filename) ∧
    (scanLibrary prior entries mkUrl freshId now).persisted =
      WriteOutcome.wrote METADATA_FILE
        (storageData (scanLibrary prior entries mkUrl freshId now).library) ∧
    (∀ r ∈ (scanLibrary prior entries mkUrl freshId now).library,
        (∃ p ∈ prior, p.filename = r.filename) →
        ∃ p ∈ prior, p.filename = r.filename ∧ stripUrl r = stripUrl p) := by
  refine ⟨?_, rfl, ?_⟩
  · intro p hp hpn r hr hre
    have hmem : r.filename ∈
        (scanLibrary prior entries mkUrl freshId now).library.map (fun t => t.filename) :=
      List.mem_map_of_mem _ hr
    rw [scanLibrary_filenames] at hmem
    exact hpn (hre ▸ hmem)
  · intro r hr hex
    have hr2 := mem_reconcileAux
      (show r ∈ reconcileAux (mapOfList (prior.map (fun s => (s.filename, s))))
          mkUrl freshId now (collectAudioFiles entries) 0 from hr)
    rcases hr2 with ⟨f, _, hcase | hcase⟩
    · rcases hcase with ⟨s, hget, rfl⟩
      rcases existing_some hget with ⟨hsmem, _⟩
      exact ⟨s, hsmem, rfl, rfl⟩
    · rcases hcase with ⟨hnone, j, rfl⟩
      simp only [newSound] at hex
      rcases existing_found hex with ⟨s, hs⟩
      rw [hnone] at hs
      cases hs

/-- C3 witness: a prior record for a vanished file is dropped and the survivors
are persisted unaltered. -/
theorem scan_deletion_witness :
    (∀ p ∈ [newSound "kick.wav" "a1" "u1" 0, newSound "gone.mp3" "a2" "u2" 0],
        p.filename ∉ collectAudioFiles [.file "kick.wav", .file "snare.wav"] →
        ∀ r ∈ (scanLibrary [newSound "kick.wav" "a1" "u1" 0, newSound "gone.mp3" "a2" "u2" 0]
            [.file "kick.wav", .file "snare.wav"]
            (fun f => "blob:" ++ f) (fun _ => "freshid") 9).library,
          r.filename ≠ p.filename) ∧
    (scanLibrary [newSound "kick.wav" "a1" "u1" 0, newSound "gone.mp3" "a2" "u2" 0]
        [.file "kick.wav", .file "snare.wav"]
        (fun f => "blob:" ++ f) (fun _ => "freshid") 9).persisted =
      WriteOutcome.wrote METADATA_FILE
        (storageData (scanLibrary [newSound "kick.wav" "a1" "u1" 0, newSound "gone.mp3" "a2" "u2" 0]
            [.file "kick.wav", .file "snare.wav"]
            (fun f => "blob:" ++ f) (fun _ => "freshid") 9).library) ∧
    (∀ r ∈ (scanLibrary [newSound "kick.wav" "a1" "u1" 0, newSound "gone.mp3" "a2" "u2" 0]
            [.file "kick.wav", .file "snare.wav"]
            (fun f => "blob:" ++ f) (fun _ => "freshid") 9).library,
        (∃ p ∈ [newSound "kick.wav" "a1" "u1" 0, newSound "gone.mp3" "a2" "u2" 0],
            p.filename = r.filename) →
        ∃ p ∈ [newSound "kick.wav" "a1" "u1" 0, newSound "gone.mp3" "a2" "u2" 0],
          p.filename = r.filename ∧ stripUrl r = stripUrl p) :=
  scan_deletion [newSound "kick.wav" "a1" "u1" 0, newSound "gone.mp3" "a2" "u2" 0]
    [.file "kick.wav", .file "snare.wav"] (fun f => "blob:" ++ f) (fun _ => "freshid") 9

/-- Helper: in a library with pairwise distinct filenames, a present filename is
carried by exactly one record. -/
theorem filter_filename_singleton :
    ∀ {l : List SoundEffect}, (l.map (fun r => r.filename)).Nodup →
      ∀ {n : String}, n ∈ l.map (fun r => r.filename) →
      (l.filter (fun r => r.filename = n)).length = 1 := by
  intro l
  induction l with
  | nil => intro _ n hn; simp at hn
  | cons t rest ih =>
    intro hnd n hn
    rw [List.map_cons, List.nodup_cons] at hnd
    rw [List.map_cons] at hn
    by_cases htn : t.filename = n
    · have hrest : rest.filter (fun r => r.filename = n) = [] := by
        rw [List.filter_eq_nil_iff]
        intro r hr
        simp only [decide_eq_true_eq]
        intro hrn
        exact hnd.1 (htn ▸ hrn ▸ List.mem_map_of_mem _ hr)
      simp [List.filter_cons, htn, hrest]
    · have hn2 : n ∈ rest.map (fun r => r.filename) := by
        rcases List.mem_cons.mp hn with h | h
        · exact absurd h.symm htn
        · exact h
      simpa [List.filter_cons, htn] using ih hnd.2 hn2

/-- C4: an accepted enumerated file with no prior record yields exactly one new
record — name is the filename with its extension stripped, category is the
default uncategorized label, tags are the sentinel list, duration 0, createdAt
now, and its id is freshly minted (distinct from every prior id) — while every
record whose filename had a prior record keeps a prior record's id. -/
theorem scan_synthesis (prior : List SoundEffect) (entries : List FsEntry)
    (mkUrl : String → String) (freshId : Nat → String) (now : Nat)
    (hfresh : ∀ k, ∀ p ∈ prior, freshId k ≠ p.id) :
    (∀ n ∈ collectAudioFiles entries, (∀ p ∈ prior, p.filename ≠ n) →
      ((scanLibrary prior entries mkUrl freshId now).library.filter
          (fun r => r.filename = n)).length = 1 ∧
      ∀ r ∈ (scanLibrary prior entries mkUrl freshId now).library, r.filename = n →
        r.name = stripExt n ∧ r.category = "Chưa phân loại" ∧
        r.tags = ["newly-detected"] ∧ r.duration = 0 ∧ r.createdAt = now ∧
        ∀ p ∈ prior, r.id ≠ p.id) ∧
    (∀ r ∈ (scanLibrary prior entries mkUrl freshId now).library,
        (∃ p ∈ prior, p.filename = r.filename) →
        ∃ p ∈ prior, p.filename = r.filename ∧ r.id = p.id) := by
  constructor
  · intro n hn hno
    constructor
    · apply filter_filename_singleton
      · rw [scanLibrary_filenames]
        exact nodup_collectAudioFiles entries
      · rw [scanLibrary_filenames]
        exact hn
    · intro r hr hrn
      have hr2 := mem_reconcileAux
        (show r ∈ reconcileAux (mapOfList (prior.map (fun s => (s.filename, s))))
            mkUrl freshId now (collectAudioFiles entries) 0 from hr)
      rcases hr2 with ⟨f, _, hcase | hcase⟩
      · rcases hcase with ⟨s, hget, rfl⟩
        rcases existing_some hget with ⟨hsmem, hsf⟩
        exact absurd hrn (hno s hsmem)
      · rcases hcase with ⟨_, j, rfl⟩
        have hfe : f = n := hrn
        subst hfe
        exact ⟨rfl, rfl, rfl, rfl, rfl, fun p hp => hfresh j p hp⟩
  · intro r hr hex
    have hr2 := mem_reconcileAux
      (show r ∈ reconcileAux (mapOfList (prior.map (fun s => (s.filename, s))))
          mkUrl freshId now (collectAudioFiles entries) 0 from hr)
    rcases hr2 with ⟨f, _, hcase | hcase⟩
    · rcases hcase with ⟨s, hget, rfl⟩
      rcases existing_some hget with ⟨hsmem, _⟩
      exact ⟨s, hsmem, rfl, rfl⟩
    · rcases hcase with ⟨hnone, j, rfl⟩
      simp only [newSound] at hex
      rcases existing_found hex with ⟨s, hs⟩
      rw [hnone] at hs
      cases hs

/-- C4 witness: scanning one known and one new file over a one-record prior. -/
theorem scan_synthesis_witness :
    ((∀ n ∈ collectAudioFiles [.file "kick.wav", .file "snare.wav"],
      (∀ p ∈ [newSound "kick.wav" "a1" "u1" 0], p.filename ≠ n) →
      ((scanLibrary [newSound "kick.wav" "a1" "u1" 0] [.file "kick.wav", .file "snare.wav"]
          (fun f => "blob:" ++ f) (fun _ => "freshid") 9).library.filter
          (fun r => r.filename = n)).length = 1 ∧
      ∀ r ∈ (scanLibrary [newSound "kick.wav" "a1" "u1" 0] [.file "kick.wav", .file "snare.wav"]
          (fun f => "blob:" ++ f) (fun _ => "freshid") 9).library, r.filename = n →
        r.name = stripExt n ∧ r.category = "Chưa phân loại" ∧
        r.tags = ["newly-detected"] ∧ r.duration = 0 ∧ r.createdAt = 9 ∧
        ∀ p ∈ [newSound "kick.wav" "a1" "u1" 0], r.id ≠ p.id) ∧
    (∀ r ∈ (scanLibrary [newSound "kick.wav" "a1" "u1" 0] [.file "kick.wav", .file "snare.wav"]
        (fun f => "blob:" ++ f) (fun _ => "freshid") 9).library,
        (∃ p ∈ [newSound "kick.wav" "a1" "u1" 0], p.filename = r.filename) →
        ∃ p ∈ [newSound "kick.wav" "a1" "u1" 0], p.filename = r.filename ∧ r.id = p.id)) :=
  scan_synthesis [newSound "kick.wav" "a1" "u1" 0] [.file "kick.wav", .file "snare.wav"]
    (fun f => "blob:" ++ f) (fun _ => "freshid") 9
    (by
      intro k
      show ∀ p ∈ [newSound "kick.wav" "a1" "u1" 0], "freshid" ≠ p.id
      decide)

/-! ## The persisted payload -/

theorem elemsHasKey_str (key : String) :
    ∀ (l : List String), elemsHasKey key (l.map Json.str) = false := by
  intro l
  induction l with
  | nil => rfl
  | cons a rest ih => simp [elemsHasKey, jsonHasKey, ih]

theorem jsonHasKey_url_persistSound (s : SoundEffect) :
    jsonHasKey "url" (persistSoundJson s) = false := by
  simp [persistSoundJson, persistFields, jsonHasKey, fieldsHasKey, elemsHasKey_str]

theorem elemsHasKey_url_sounds :
    ∀ (l : List SoundEffect), elemsHasKey "url" (l.map persistSoundJson) = false := by
  intro l
  induction l with
  | nil => rfl
  | cons s rest ih => simp [elemsHasKey, jsonHasKey_url_persistSound, ih]

/-- C5: whatever the library and whatever each record's `url` value, the payload
serialized by a metadata write contains no `url` key anywhere in the document. -/
theorem saveMetadata_no_url (library : List SoundEffect) (hasRoot : Bool)
    (file : String) (payload : Json)
    (h : saveMetadata hasRoot library = WriteOutcome.wrote file payload) :
    jsonHasKey "url" payload = false := by
  unfold saveMetadata at h
  cases hasRoot with
  | false => simp at h
  | true =>
    simp only [if_true] at h
    obtain ⟨h1, h2⟩ := by simpa using h
    subst h2
    simp [storageData, jsonHasKey, fieldsHasKey, elemsHasKey_url_sounds]

/-- C5 witness: a concrete record carrying a `url` is persisted without one. -/
theorem saveMetadata_no_url_witness :
    jsonHasKey "url" (storageData [newSound "kick.wav" "a1" "u1" 0]) = false :=
  saveMetadata_no_url [newSound "kick.wav" "a1" "u1" 0] true METADATA_FILE
    (storageData [newSound "kick.wav" "a1" "u1" 0]) rfl

/-- C6 counterexample: `sound.flac` carries one of the seven extensions the claim
lists, yet the classifier rejects it. -/
theorem classifier_flac_rejected :
    specIsAudioSeven "sound.flac" = true ∧ isAudio "sound.flac" = false := by
  constructor
  · decide
  · decide

/-- C6 amended: the classifier accepts a name exactly when its lowercased form
ends in one of the four extensions mp3, wav, ogg, m4a. -/
theorem classifier_allowlist (name : String) :
    isAudio name = specIsAudioFour name := by
  simp [isAudio, specIsAudioFour, codeAudioExts, List.any, Bool.or_assoc]

/-- C6 amended witness: the allow-list test agrees with the classifier on a
concrete mixed-case name. -/
theorem classifier_allowlist_witness :
    isAudio "Kick.WAV" = specIsAudioFour "Kick.WAV" :=
  classifier_allowlist "Kick.WAV"

/-- C7 counterexample: a supported audio file directly inside a first-level
subfolder of the root yields no library record at all. -/
theorem subfolder_file_invisible :
    isAudio "kick.wav" = true ∧
    (scanLibrary [] [.dir "sub" [.file "kick.wav"]]
        (fun f => "blob:" ++ f) (fun _ => "freshid") 9).library = [] := by
  constructor
  · decide
  · rfl

/-- C7 amended: the scan enumerates only the root directory's direct file
entries: every record's filename is a top-level file entry of the listing, and
every top-level supported audio file becomes a record; nothing inside any
subdirectory, at any depth, is enumerated. -/
theorem scan_top_level_only (prior : List SoundEffect) (entries : List FsEntry)
    (mkUrl : String → String) (freshId : Nat → String) (now : Nat) :
    (∀ r ∈ (scanLibrary prior entries mkUrl freshId now).library,
        FsEntry.file r.filename ∈ entries) ∧
    (∀ n, FsEntry.file n ∈ entries → isAudio n = true →
        ∃ r ∈ (scanLibrary prior entries mkUrl freshId now).library, r.filename = n) := by
  constructor
  · intro r hr
    have hmem : r.filename ∈
        (scanLibrary prior entries mkUrl freshId now).library.map (fun t => t.filename) :=
      List.mem_map_of_mem _ hr
    rw [scanLibrary_filenames] at hmem
    exact (mem_collectAudioFiles.mp hmem).1
  · intro n hn ha
    have hc : n ∈ collectAudioFiles entries := mem_collectAudioFiles.mpr ⟨hn, ha⟩
    have hmem : n ∈
        (scanLibrary prior entries mkUrl freshId now).library.map (fun t => t.filename) := by
      rw [scanLibrary_filenames]
      exact hc
    rcases List.mem_map.mp hmem with ⟨r, hr, hrn⟩
    exact ⟨r, hr, hrn⟩

/-- C7 amended witness: a listing with one top-level file and one nested file. -/
theorem scan_top_level_only_witness :
    (∀ r ∈ (scanLibrary [] [.file "kick.wav", .dir "sub" [.file "hat.wav"]]
        (fun f => "blob:" ++ f) (fun _ => "freshid") 9).library,
        FsEntry.file r.filename ∈ [.file "kick.wav", .dir "sub" [.file "hat.wav"]]) ∧
    (∀ n, FsEntry.file n ∈ ([.file "kick.wav", .dir "sub" [.file "hat.wav"]] : List FsEntry) →
        isAudio n = true →
        ∃ r ∈ (scanLibrary [] [.file "kick.wav", .dir "sub" [.file "hat.wav"]]
            (fun f => "blob:" ++ f) (fun _ => "freshid") 9).library, r.filename = n) :=
  scan_top_level_only [] [.file "kick.wav", .dir "sub" [.file "hat.wav"]]
    (fun f => "blob:" ++ f) (fun _ => "freshid") 9

/-- C8 counterexample: a metadata write of a sample library produces a document
whose only top-level key is `sounds`; it has no `customCategories` key. -/
theorem metadata_shape_cex :
    saveMetadata true [newSound "kick.wav" "a1" "u1" 0] =
      WriteOutcome.wrote METADATA_FILE (storageData [newSound "kick.wav" "a1" "u1" 0]) ∧
    jsonTopKeys (storageData [newSound "kick.wav" "a1" "u1" 0]) = ["sounds"] ∧
    "customCategories" ∉ jsonTopKeys (storageData [newSound "kick.wav" "a1" "u1" 0]) := by
  refine ⟨rfl, rfl, ?_⟩
  decide

/-- C8 amended: every metadata write targets the fixed filename
`sonicflow_data.json` at the root of the managed directory and serializes the
url-stripped snapshot under the single top-level key `sounds`; no
`customCategories` key is part of the document. -/
theorem metadata_write_shape (library : List SoundEffect) (hasRoot : Bool)
    (file : String) (payload : Json)
    (h : saveMetadata hasRoot library = WriteOutcome.wrote file payload) :
    file = METADATA_FILE ∧ METADATA_FILE = "sonicflow_data.json" ∧
    jsonTopKeys payload = ["sounds"] ∧ payload = storageData library := by
  unfold saveMetadata at h
  cases hasRoot with
  | false => simp at h
  | true =>
    simp only [if_true] at h
    obtain ⟨h1, h2⟩ := by simpa using h
    subst h2
    exact ⟨h1.symm, rfl, rfl, rfl⟩

/-- C8 amended witness: the shape facts at a concrete write. -/
theorem metadata_write_shape_witness :
    METADATA_FILE = METADATA_FILE ∧ METADATA_FILE = "sonicflow_data.json" ∧
    jsonTopKeys (storageData [newSound "kick.wav" "a1" "u1" 0]) = ["sounds"] ∧
    storageData [newSound "kick.wav" "a1" "u1" 0] =
      storageData [newSound "kick.wav" "a1" "u1" 0] :=
  metadata_write_shape [newSound "kick.wav" "a1" "u1" 0] true METADATA_FILE
    (storageData [newSound "kick.wav" "a1" "u1" 0]) rfl

/-! ## Category deletion -/

theorem mem_foldl_setInsert {x : String} :
    ∀ {l acc : List String}, x ∈ l.foldl setInsert acc ↔ x ∈ acc ∨ x ∈ l := by
  intro l
  induction l with
  | nil => intro acc; simp
  | cons a rest ih =>
    intro acc
    rw [List.foldl_cons, ih, mem_setInsert]
    simp only [List.mem_cons]
    tauto

theorem mem_setDedup {l : List String} {x : String} : x ∈ setDedup l ↔ x ∈ l := by
  unfold setDedup
  rw [mem_foldl_setInsert]
  simp

theorem mem_allCategories {custom : List String} {x : String} :
    x ∈ allCategories custom ↔ x ∈ DEFAULT_CATEGORIES ∨ x ∈ custom := by
  unfold allCategories
  rw [mem_setDedup]
  exact List.mem_append

theorem zip_map_self {α : Type} (f : α → α) :
    ∀ {l : List α} {q : α × α}, q ∈ l.zip (l.map f) → q.2 = f q.1 := by
  intro l
  induction l with
  | nil => intro q h; simp at h
  | cons a rest ih =>
    intro q h
    rw [List.map_cons, List.zip_cons_cons] at h
    rcases List.mem_cons.mp h with rfl | h2
    · rfl
    · exact ih h2

theorem count_reassign {C : String} (hC2 : "Chưa phân loại" ≠ C) :
    ∀ (l : List SoundEffect),
      ((l.map (fun s => if s.category = C then { s with category := "Chưa phân loại" } else s)).filter
          (fun s => s.category = C)).length = 0 ∧
      ((l.map (fun s => if s.category = C then { s with category := "Chưa phân loại" } else s)).filter
          (fun s => s.category = "Chưa phân loại")).length =
        (l.filter (fun s => s.category = "Chưa phân loại")).length +
        (l.filter (fun s => s.category = C)).length := by
  have hC3 : ¬ (C = "Chưa phân loại") := fun h => hC2 h.symm
  intro l
  induction l with
  | nil => simp
  | cons s rest ih =>
    obtain ⟨ih1, ih2⟩ := ih
    by_cases h1 : s.category = C
    · have hsd : ¬ s.category = "Chưa phân loại" := by
        rw [h1]
        exact fun he => hC2 he.symm
      constructor
      · simpa [List.filter_cons, h1, hC2, hC3] using ih1
      · simp [List.filter_cons, h1, hC2, hC3, hsd, ih2]
        omega
    · constructor
      · simpa [List.filter_cons, h1, hC2, hC3] using ih1
      · by_cases h2 : s.category = "Chưa phân loại"
        · simp [List.filter_cons, h1, h2, hC2, hC3, ih2]
          omega
        · simp [List.filter_cons, h1, h2, hC2, hC3, ih2]

/-- C9: for a custom category, `handleDeleteCategory` leaves zero records in the
category, makes the default-label count grow by exactly the number of records
previously in the category, removes it from the combined category set, returns
every other record unchanged position by position, and performs exactly one
metadata write carrying the updated records together with the updated custom
list; applied to a default category it changes nothing and writes nothing. -/
theorem delete_category (st : AppState) (category : String) :
    (category ∉ DEFAULT_CATEGORIES →
      ((handleDeleteCategory st category).1.sounds.filter
          (fun s => s.category = category)).length = 0 ∧
      ((handleDeleteCategory st category).1.sounds.filter
          (fun s => s.category = "Chưa phân loại")).length =
        (st.sounds.filter (fun s => s.category = "Chưa phân loại")).length +
        (st.sounds.filter (fun s => s.category = category)).length ∧
      category ∉ allCategories (handleDeleteCategory st category).1.customCategories ∧
      (handleDeleteCategory st category).1.sounds.length = st.sounds.length ∧
      (∀ q ∈ st.sounds.zip (handleDeleteCategory st category).1.sounds,
          (q.1.category ≠ category → q.2 = q.1) ∧
          (q.1.category = category → q.2 = { q.1 with category := "Chưa phân loại" })) ∧
      (handleDeleteCategory st category).2 =
        [writeMetadataPayload (handleDeleteCategory st category).1.sounds
            (handleDeleteCategory st category).1.customCategories]) ∧
    (category ∈ DEFAULT_CATEGORIES → handleDeleteCategory st category = (st, [])) := by
  constructor
  · intro hC
    have hcont : DEFAULT_CATEGORIES.contains category = false := by simpa using hC
    have hred : handleDeleteCategory st category =
        ({ sounds := st.sounds.map (fun s =>
              if s.category = category then { s with category := "Chưa phân loại" } else s),
           customCategories := st.customCategories.filter (fun c => c ≠ category) },
         [writeMetadataPayload
            (st.sounds.map (fun s =>
              if s.category = category then { s with category := "Chưa phân loại" } else s))
            (st.customCategories.filter (fun c => c ≠ category))]) := by
      simp [handleDeleteCategory, hC]
    have hC2 : "Chưa phân loại" ≠ category := by
      intro he
      exact hC (he ▸ (by decide : "Chưa phân loại" ∈ DEFAULT_CATEGORIES))
    rw [hred]
    refine ⟨(count_reassign hC2 st.sounds).1, (count_reassign hC2 st.sounds).2, ?_,
      by simp, ?_, rfl⟩
    · rw [mem_allCategories]
      rintro (h | h)
      · exact hC h
      · rcases List.mem_filter.mp h with ⟨_, hne⟩
        simp at hne
    · intro q hq
      have hq2 := zip_map_self
        (fun (s : SoundEffect) =>
          if s.category = category then { s with category := "Chưa phân loại" } else s) hq
      constructor
      · intro hne
        rw [hq2]
        simp [hne]
      · intro heq
        rw [hq2]
        simp [heq]
  · intro hC
    simp [handleDeleteCategory, hC]

/-- C9 witness: deleting the custom category `Custom1` of the sample state, and
deleting the default category `Kinh dị`. -/
theorem delete_category_witness :
    (((handleDeleteCategory sampleState "Custom1").1.sounds.filter
        (fun s => s.category = "Custom1")).length = 0 ∧
      ((handleDeleteCategory sampleState "Custom1").1.sounds.filter
          (fun s => s.category = "Chưa phân loại")).length =
        (sampleState.sounds.filter (fun s => s.category = "Chưa phân loại")).length +
        (sampleState.sounds.filter (fun s => s.category = "Custom1")).length ∧
      "Custom1" ∉ allCategories (handleDeleteCategory sampleState "Custom1").1.customCategories ∧
      (handleDeleteCategory sampleState "Custom1").1.sounds.length =
        sampleState.sounds.length ∧
      (∀ q ∈ sampleState.sounds.zip (handleDeleteCategory sampleState "Custom1").1.sounds,
          (q.1.category ≠ "Custom1" → q.2 = q.1) ∧
          (q.1.category = "Custom1" → q.2 = { q.1 with category := "Chưa phân loại" })) ∧
      (handleDeleteCategory sampleState "Custom1").2 =
        [writeMetadataPayload (handleDeleteCategory sampleState "Custom1").1.sounds
            (handleDeleteCategory sampleState "Custom1").1.customCategories]) ∧
    handleDeleteCategory sampleState "Kinh dị" = (sampleState, []) :=
  ⟨(delete_category sampleState "Custom1").1 (by decide),
   (delete_category sampleState "Kinh dị").2 (by decide)⟩

/-- C10 counterexample: with no writable directory handle configured,
`saveMetadata` returns without performing any write and without raising any
condition — a silent no-op, not a distinct ReadOnlyMode failure — and
`saveSoundToFolder` fails with the generic message "No folder". -/
theorem readonly_writes_cex :
    saveMetadata false [newSound "kick.wav" "a1" "u1" 0] = WriteOutcome.noWrite ∧
    (∀ file payload, saveMetadata false [newSound "kick.wav" "a1" "u1" 0] ≠
        WriteOutcome.wrote file payload) ∧
    saveSoundToFolder false (newSound "kick.wav" "a1" "u1" 0) "audio/mpeg" =
      Except.error "No folder" := by
  refine ⟨rfl, ?_, rfl⟩
  intro file payload h
  simp [saveMetadata] at h

/-- C10 amended: without a writable directory handle, `saveMetadata` silently
returns without effect (no write, no failure) and `saveSoundToFolder` throws the
generic error "No folder"; no distinct ReadOnlyMode condition exists in either
write path. -/
theorem readonly_writes (library : List SoundEffect) (sound : SoundEffect)
    (blobType : String) :
    saveMetadata false library = WriteOutcome.noWrite ∧
    saveSoundToFolder false sound blobType = Except.error "No folder" :=
  ⟨rfl, rfl⟩

/-- C10 amended witness: the amended behaviour at a concrete record and blob. -/
theorem readonly_writes_witness :
    saveMetadata false [newSound "kick.wav" "a1" "u1" 0] = WriteOutcome.noWrite ∧
    saveSoundToFolder false (newSound "snare.wav" "a2" "u2" 0) "audio/wav" =
      Except.error "No folder" :=
  readonly_writes [newSound "kick.wav" "a1" "u1" 0] (newSound "snare.wav" "a2" "u2" 0)
    "audio/wav"
